import Mathlib

/-
Verification of the Kataglyphis WebDAV client's path-reconciliation,
listing and download logic.

Strings are modelled as lists of characters (`Str := List Char`), read as
byte/codepoint sequences.  All Python string primitives used by the client
(`urllib.parse.unquote`, `str.find`, slicing, `startswith`/`endswith`,
`rstrip`, `rsplit`, `in`, `str.split(sep, 1)`) are translated below, and the
client's methods are translated on top of them.  `requests` responses are
abstracted as the data the client inspects: a PROPFIND response is a status
code together with the ordered list of `DAV: href` texts, and a GET is an
oracle from the request URL to a status code and a body.
-/

namespace WebDav

abbrev Str := List Char

deriving instance DecidableEq for Except

/-- Is `c` a hexadecimal digit?  (Matches the sequences `urllib.parse.unquote`
is willing to decode.) -/
def isHex (c : Char) : Bool :=
  c.isDigit || ('a' ≤ c && c ≤ 'f') || ('A' ≤ c && c ≤ 'F')

/-- Numeric value of a hexadecimal digit. -/
def hexVal (c : Char) : Nat :=
  if c.isDigit then c.toNat - '0'.toNat
  else if 'a' ≤ c then c.toNat - 'a'.toNat + 10
  else c.toNat - 'A'.toNat + 10

/-- Translation of `urllib.parse.unquote`: each `%XY` with two hex digits is
replaced by the character of code `16*X + Y`; invalid escapes are kept
literally.  (Byte-level model of the percent-decoding.) -/
def unquote : Str → Str
  | [] => []
  | '%' :: a :: b :: rest =>
    if isHex a && isHex b then
      Char.ofNat (16 * hexVal a + hexVal b) :: unquote rest
    else
      '%' :: unquote (a :: b :: rest)
  | c :: rest => c :: unquote rest

/-- Translation of Python `full.find(pat)`: index of the first occurrence of
`pat` as a contiguous substring, `none` when absent (Python returns `-1`). -/
def findSub : Str → Str → Option Nat
  | [], pat => if pat.isPrefixOf ([] : Str) then some 0 else none
  | c :: rest, pat =>
    if pat.isPrefixOf (c :: rest) then some 0
    else (findSub rest pat).map (· + 1)

/-- Translation of Python `s.endswith("/")`. -/
def endsWithSlash (s : Str) : Bool :=
  s.reverse.head? == some '/'

/-- Translation of Python `s.rstrip("/")`: remove every trailing slash. -/
def rstripSlash (s : Str) : Str :=
  (s.reverse.dropWhile (fun c => c == '/')).reverse

/-- Translation of Python `s.lstrip("/")`. -/
def lstripSlash (s : Str) : Str :=
  s.dropWhile (fun c => c == '/')

/-- Translation of Python `s.strip("/")` as used by `_join_remote_url`. -/
def stripSlash (s : Str) : Str :=
  rstripSlash (lstripSlash s)

/-- Translation of Python `s.rsplit("/", maxsplit=1)[-1]`: the part of `s`
after the last slash (all of `s` when it has no slash). -/
def lastSeg (s : Str) : Str :=
  (s.reverse.takeWhile (fun c => !(c == '/'))).reverse

/-- The anchor normalization step of `get_sub_path`: ensure a trailing
slash. -/
def normSlash (s : Str) : Str :=
  if endsWithSlash s then s else s ++ ['/']

/-- Translation of `_join_remote_url(*parts)` from
`src/kataglyphis_webdavclient/webdavclient.py`: drop empty parts, strip
slashes from each remaining part, join with `/`. -/
def join_remote_url (parts : List Str) : Str :=
  List.intercalate ['/'] ((parts.filter (fun p => !(p == []))).map stripSlash)

/-- Components of a POSIX path the way `pathlib.PurePosixPath` parses them:
split on `/`, dropping empty and `.` components. -/
def posixParts (s : Str) : List Str :=
  (s.splitOn '/').filter (fun c => !(c == []) && !(c == ['.']))

/-- Translation of `PurePosixPath(s).name`:  the last parsed component
(empty for a root or empty path). -/
def posixName (s : Str) : Str :=
  (posixParts s).getLastD []

/-- A `PurePosixPath` value: whether it is absolute, and its components. -/
abbrev PurePath := Bool × List Str

/-- Translation of `PurePosixPath(s)`. -/
def pathParse (s : Str) : PurePath :=
  (s.head? == some '/', posixParts s)

/-- Translation of the `/` operator on `PurePosixPath`: an absolute right
operand replaces the path, any other is appended componentwise. -/
def pathDiv (p : PurePath) (s : Str) : PurePath :=
  if s.head? == some '/' then (true, posixParts s) else (p.1, p.2 ++ posixParts s)

/-- Translation of `str(...)` on a `PurePosixPath` (an empty relative path is
rendered as the empty string rather than Python's `"."`; no claim touches
that corner). -/
def pathRender (p : PurePath) : Str :=
  (if p.1 then ['/'] else []) ++ List.intercalate ['/'] p.2

/-- Translation of `WebDavClient.get_sub_path` from
`src/kataglyphis_webdavclient/webdavclient.py` (the permissive, decoded
fallback version).  `Except.error ()` models the raised `ValueError`. -/
def get_sub_path (full_path initial_part : Str) : Except Unit Str :=
  let decoded_full_path := unquote full_path
  let decoded_initial_part := normSlash (unquote initial_part)
  match findSub decoded_full_path decoded_initial_part with
  | none => .error ()
  | some start_idx =>
    let decoded_initial_part2 := '/' :: decoded_initial_part
    if full_path = rstripSlash decoded_initial_part2 then .ok []
    else if initial_part.isPrefixOf full_path then
      .ok (full_path.drop initial_part.length)
    else
      .ok (decoded_full_path.drop (start_idx + decoded_initial_part2.length - 1))

/-- Translation of the historical `WebDavClient.get_sub_path` from
`src/webdavclient/webdavclient.py` (the strict, raise-on-mismatch
version). -/
def get_sub_path_old (full_path initial_part : Str) : Except Unit Str :=
  let ip := normSlash initial_part
  if full_path = rstripSlash ip then .ok []
  else if ip.isPrefixOf full_path then .ok (full_path.drop ip.length)
  else .error ()

/-- Translation of `WebDavClient.filter_after_global_base_path`:  if
`"/" + base + "/"` occurs in `path`, everything after its first occurrence
(`path.split(search, 1)[1]`), else `path` unchanged. -/
def filter_after_global_base_path (path remote_base_path : Str) : Str :=
  let search_str := '/' :: (remote_base_path ++ ['/'])
  match findSub path search_str with
  | some i => path.drop (i + search_str.length)
  | none => path

/-- The message of the `OSError` raised by `list_files` on a non-207
PROPFIND: `"Failed to list directory contents via requests: " + status`. -/
def list_files_error_message (status : Nat) : Str :=
  "Failed to list directory contents via requests: ".data ++ Nat.toDigits 10 status

/-- The message of the `OSError` raised by `list_folders` on a non-207
PROPFIND: `"Failed to list directory contents: " + status`. -/
def list_folders_error_message (status : Nat) : Str :=
  "Failed to list directory contents: ".data ++ Nat.toDigits 10 status

/-- Translation of `WebDavClient.list_files`.  The PROPFIND response is
abstracted as its status code and the ordered list of `DAV: href` texts; the
raised `OSError` is modelled as an error value carrying the status code and
the message.  The body is the literal accumulation loop over the response
elements. -/
def list_files (status : Nat) (hrefs : List Str) : Except (Nat × Str) (List Str) :=
  if status ≠ 207 then .error (status, list_files_error_message status)
  else .ok (hrefs.foldl (fun files href =>
    if !endsWithSlash href then files ++ [href] else files) [])

/-- The per-element filter of `WebDavClient.list_folders`
(`is_folder and is_not_remote_base_path and not is_hidden_folder`): a
trailing-slash href, different from the requested URL plus `"/"`
(`_join_remote_url(hostname, remote_base_path) + "/"`), whose basename is
neither the last segment of `remote_base_path` nor hidden. -/
def list_folders_keep (hostname remote_base_path href : Str) : Bool :=
  let url := join_remote_url [hostname, remote_base_path]
  let folder := posixName (rstripSlash href)
  let is_folder := endsWithSlash href
  let is_not_remote_base_path :=
    !(href == url ++ ['/']) && !(folder == lastSeg remote_base_path)
  let is_hidden_folder := ['.'].isPrefixOf folder
  is_folder && is_not_remote_base_path && !is_hidden_folder

/-- The accumulation loop of `WebDavClient.list_folders` over the response
elements of a multistatus PROPFIND answer. -/
def list_folders_loop (hostname remote_base_path : Str) (hrefs : List Str) : List Str :=
  hrefs.foldl (fun folders href =>
    if list_folders_keep hostname remote_base_path href then
      folders ++ [posixName (rstripSlash href)]
    else folders) []

/-- Translation of `WebDavClient.list_folders`. -/
def list_folders (hostname remote_base_path : Str) (status : Nat) (hrefs : List Str) :
    Except (Nat × Str) (List Str) :=
  if status ≠ 207 then .error (status, list_folders_error_message status)
  else .ok (list_folders_loop hostname remote_base_path hrefs)

/-- The local filesystem, as the association of file paths to the byte
contents last written there. -/
abbrev Fs := List (Str × List Nat)

/-- Writing a file: `open(path, "wb")` truncates, so the previous content at
the path is replaced. -/
def fsWrite (fs : Fs) (k : Str) (v : List Nat) : Fs :=
  (k, v) :: fs.filter (fun e => !(e.1 == k))

/-- The content stored at a path. -/
def fsLookup (fs : Fs) (k : Str) : Option (List Nat) :=
  (fs.find? (fun e => e.1 == k)).map Prod.snd

/-- Replay a list of writes, in order, on a filesystem. -/
def applyWrites (fs : Fs) : List (Str × List Nat) → Fs
  | [] => fs
  | (k, v) :: w => applyWrites (fsWrite fs k v) w

/-- The errors `download_files` can propagate: a non-207 PROPFIND
(`OSError` from `list_files`) or a `ValueError` from `get_sub_path`. -/
inductive DlErr : Type where
  | listFail (status : Nat) (msg : Str) : DlErr
  | anchorFail : DlErr
  deriving DecidableEq, Repr

/-- Outcome of a (possibly partial) download run: the GET request URLs
issued, the filesystem after the run, and the propagated exception if the
run aborted. -/
structure DlOut : Type where
  requests : List Str
  fs : Fs
  err : Option DlErr
  deriving DecidableEq, Repr

/-- `file_name` as computed for one listed href inside
`WebDavClient.download_files`. -/
def dlFileName (remote_base_path href : Str) : Str :=
  filter_after_global_base_path href remote_base_path

/-- `decoded_filename` as computed inside `WebDavClient.download_files`. -/
def dlDecodedName (remote_base_path href : Str) : Str :=
  unquote (dlFileName remote_base_path href)

/-- `remote_file_url` as computed inside `WebDavClient.download_files`: the
GET target is rebuilt with `_join_remote_url`, not taken from the href. -/
def dlRequestUrl (hostname remote_base_path href : Str) : Str :=
  join_remote_url [hostname, remote_base_path, dlFileName remote_base_path href]

/-- `local_file_path` as computed inside `WebDavClient.download_files`:
`Path(local_base_path) / sub_path / decoded_filename`. -/
def dlLocalPath (local_base_path sub_path decoded_filename : Str) : Str :=
  pathRender (pathDiv (pathDiv (pathParse local_base_path) sub_path) decoded_filename)

/-- The per-file body of the loop of `WebDavClient.download_files`, for one
href, producing the local destination (after the filename-suffix fixups of
`sub_path`) or the `ValueError` of `get_sub_path`.  `get` is the HTTP GET
oracle. -/
def dlStep (global_remote_base_path remote_base_path local_base_path : Str)
    (href : Str) : Except Unit Str :=
  let decoded_filename := dlDecodedName remote_base_path href
  match get_sub_path href global_remote_base_path with
  | .error _ => .error ()
  | .ok sub_path =>
    let sub_path1 :=
      if decoded_filename.isSuffixOf sub_path then
        sub_path.take (sub_path.length - decoded_filename.length)
      else sub_path
    let sub_path2 := if sub_path1 = decoded_filename then [] else sub_path1
    .ok (dlLocalPath local_base_path sub_path2 decoded_filename)

/-- The `for file_path in files_on_host` loop of
`WebDavClient.download_files`: for each href compute destination, issue the
GET, write the body on a 200, skip on any other status; a `ValueError` from
`get_sub_path` aborts the loop (previous writes remain on disk). -/
def dlLoop (hostname global_remote_base_path remote_base_path local_base_path : Str)
    (get : Str → Nat × List Nat) : List Str → Fs → DlOut
  | [], fs => ⟨[], fs, none⟩
  | href :: t, fs =>
    match dlStep global_remote_base_path remote_base_path local_base_path href with
    | .error _ => ⟨[], fs, some .anchorFail⟩
    | .ok local_file_path =>
      let url := dlRequestUrl hostname remote_base_path href
      let res := get url
      let fs2 := if res.1 = 200 then fsWrite fs local_file_path res.2 else fs
      let out := dlLoop hostname global_remote_base_path remote_base_path local_base_path get t fs2
      ⟨url :: out.requests, out.fs, out.err⟩

/-- Translation of `WebDavClient.download_files`.  The depth-1 PROPFIND of
`list_files` is abstracted as the pair `(status, hrefs)`; `get` answers each
GET with a status code and a body. -/
def download_files (hostname global_remote_base_path remote_base_path local_base_path : Str)
    (get : Str → Nat × List Nat) (status : Nat) (hrefs : List Str) (fs : Fs) : DlOut :=
  match list_files status hrefs with
  | .error e => ⟨[], fs, some (.listFail e.1 e.2)⟩
  | .ok files_on_host =>
    dlLoop hostname global_remote_base_path remote_base_path local_base_path get files_on_host fs

/-- The write a single href contributes to the local filesystem: its body
at its computed destination when its GET answers 200, and nothing
otherwise (non-200 files are skipped, nothing is written for them). -/
def dlWrite (hostname global_remote_base_path remote_base_path local_base_path : Str)
    (get : Str → Nat × List Nat) (href : Str) : Option (Str × List Nat) :=
  match dlStep global_remote_base_path remote_base_path local_base_path href with
  | .error _ => none
  | .ok local_file_path =>
    let res := get (dlRequestUrl hostname remote_base_path href)
    if res.1 = 200 then some (local_file_path, res.2) else none

/-- A finite, acyclic (tree-shaped) remote hierarchy, as assumed by the
traversal claims: each folder node carries the file hrefs and the subfolder
entries (folder href paired with its subtree) that the server's depth-1
PROPFIND reports for it, in response order.  The PROPFIND answer for a node
is `files ++ subs.map Prod.fst` with status 207. -/
inductive RTree : Type where
  | node (files : List Str) (subs : List (Str × RTree)) : RTree

mutual

/-- Number of folder nodes of a tree. -/
def treeSize : RTree → Nat
  | .node _ subs => 1 + subsListSize subs

/-- Total number of folder nodes of a list of subfolder entries. -/
def subsListSize : List (Str × RTree) → Nat
  | [] => 0
  | (_, t) :: r => treeSize t + subsListSize r

end

/-- The path pushed on the work stack for a discovered subfolder:
`str(PurePosixPath(current_remote_path) / folder)` with `folder` the
basename `list_folders` returned for the href. -/
def childPath (current href : Str) : Str :=
  pathRender (pathDiv (pathParse current) (posixName (rstripSlash href)))

/-- The subfolder entries of a node that `list_folders` reports for it,
paired as (pushed path, subtree), in response order. -/
def pushedSubs (hostname current : Str) (subs : List (Str × RTree)) : List (Str × RTree) :=
  (subs.filter (fun s => list_folders_keep hostname current s.1)).map
    (fun s => (childPath current s.1, s.2))

def subsListSize_append (a b : List (Str × RTree)) :
    subsListSize (a ++ b) = subsListSize a + subsListSize b := by
  induction a with
  | nil => simp [subsListSize]
  | cons h t ih =>
    obtain ⟨s, u⟩ := h
    simp [subsListSize, ih]
    omega

def subsListSize_reverse (a : List (Str × RTree)) :
    subsListSize a.reverse = subsListSize a := by
  induction a with
  | nil => rfl
  | cons h t ih =>
    obtain ⟨s, u⟩ := h
    simp [List.reverse_cons, subsListSize_append, subsListSize, ih]
    omega

def subsListSize_filter_le (q : Str × RTree → Bool) (a : List (Str × RTree)) :
    subsListSize (a.filter q) ≤ subsListSize a := by
  induction a with
  | nil => simp
  | cons h t ih =>
    obtain ⟨s, u⟩ := h
    by_cases hq : q (s, u) <;>
      simp [List.filter_cons, hq, subsListSize] <;> omega

def subsListSize_map_snd (f : Str × RTree → Str) (a : List (Str × RTree)) :
    subsListSize (a.map (fun s => (f s, s.2))) = subsListSize a := by
  induction a with
  | nil => rfl
  | cons h t ih =>
    obtain ⟨s, u⟩ := h
    simp [subsListSize, ih]

def subsListSize_pushed_lt (hostname current : Str) (files : List Str)
    (subs rest : List (Str × RTree)) :
    subsListSize ((pushedSubs hostname current subs).reverse ++ rest) <
      subsListSize ((current, RTree.node files subs) :: rest) := by
  have h1 := subsListSize_filter_le (fun s => list_folders_keep hostname current s.1) subs
  simp [subsListSize_append, subsListSize_reverse, pushedSubs,
    subsListSize_map_snd, subsListSize, treeSize]
  omega

/-- Outcome of a (possibly partial) tree walk: the remote folder paths
popped from the work stack, the filesystem after the run, and the
propagated exception if the run aborted. -/
structure WalkOut : Type where
  trace : List Str
  fs : Fs
  err : Option DlErr
  deriving DecidableEq, Repr

/-- The `while stack:` loop of `WebDavClient.download_all_files_iterative`,
run against a tree-shaped remote hierarchy: pop the most recently pushed
folder (the Python code appends to and pops from the end of its list; the
head of this list plays that role), download its files, then push each
subfolder `list_folders` reports, so that the last one listed is popped
first.  An exception from `download_files` propagates and aborts the
walk. -/
def walk (hostname global_remote_base_path local_base_path : Str)
    (get : Str → Nat × List Nat) : List (Str × RTree) → Fs → WalkOut
  | [], fs => ⟨[], fs, none⟩
  | (current, RTree.node files subs) :: rest, fs =>
    let listing := files ++ subs.map Prod.fst
    let dl := download_files hostname global_remote_base_path current local_base_path get
      207 listing fs
    match dl.err with
    | some e => ⟨[current], dl.fs, some e⟩
    | none =>
      let out := walk hostname global_remote_base_path local_base_path get
        ((pushedSubs hostname current subs).reverse ++ rest) dl.fs
      ⟨current :: out.trace, out.fs, out.err⟩
  termination_by stack _ => subsListSize stack
  decreasing_by
    exact subsListSize_pushed_lt hostname current files subs rest

/-- Translation of `WebDavClient.download_all_files_iterative` against a
tree-shaped remote: stack initialized with the root,
`global_remote_base_path` remembered as the anchor of the whole walk. -/
def download_all_files_iterative (hostname remote_base_path local_base_path : Str)
    (get : Str → Nat × List Nat) (t : RTree) (fs : Fs) : WalkOut :=
  walk hostname remote_base_path local_base_path get [(remote_base_path, t)] fs

/-- The folders reachable from a stack of pending folders, each listed
exactly once (discovery order): a popped folder followed by the folders
reachable from the subfolders `list_folders` reports for it. -/
def reachStack (hostname : Str) : List (Str × RTree) → List Str
  | [] => []
  | (current, RTree.node _ subs) :: rest =>
    current :: reachStack hostname (pushedSubs hostname current subs ++ rest)
  termination_by stack => subsListSize stack
  decreasing_by
    have h1 := subsListSize_filter_le (fun s => list_folders_keep hostname current s.1) subs
    simp [subsListSize_append, pushedSubs, subsListSize_map_snd, subsListSize, treeSize]
    omega

/-! Basic facts about the string primitives. -/

theorem endsWithSlash_nil : endsWithSlash [] = false := rfl

theorem ne_nil_of_endsWithSlash {s : Str} (h : endsWithSlash s = true) : s ≠ [] := by
  intro he
  subst he
  simp [endsWithSlash] at h

theorem endsWithSlash_cons (c : Char) {l : Str} (h : l ≠ []) :
    endsWithSlash (c :: l) = endsWithSlash l := by
  simp only [endsWithSlash, List.reverse_cons]
  rw [List.head?_append_of_ne_nil]
  simpa using h

theorem endsWithSlash_append_slash (t : Str) : endsWithSlash (t ++ ['/']) = true := by
  simp [endsWithSlash]

theorem endsWithSlash_iff {s : Str} : endsWithSlash s = true ↔ ∃ t, s = t ++ ['/'] := by
  constructor
  · intro h
    rcases hrev : s.reverse with _ | ⟨c, r⟩
    · simp [endsWithSlash, hrev] at h
    · have hc : c = '/' := by simp [endsWithSlash, hrev] at h; exact h
      refine ⟨r.reverse, ?_⟩
      have := congrArg List.reverse hrev
      simpa [hc] using this
  · rintro ⟨t, rfl⟩
    exact endsWithSlash_append_slash t

theorem normSlash_of_endsWithSlash {s : Str} (h : endsWithSlash s = true) :
    normSlash s = s := by
  simp [normSlash, h]

theorem endsWithSlash_normSlash (s : Str) : endsWithSlash (normSlash s) = true := by
  unfold normSlash
  split
  · assumption
  · exact endsWithSlash_append_slash s

theorem rstripSlash_length_le (s : Str) : (rstripSlash s).length ≤ s.length := by
  calc (rstripSlash s).length = (s.reverse.dropWhile (fun c => c == '/')).length := by
        simp [rstripSlash]
    _ ≤ s.reverse.length := (List.dropWhile_suffix _).length_le
    _ = s.length := by simp

theorem rstripSlash_length_lt {s : Str} (h : endsWithSlash s = true) :
    (rstripSlash s).length < s.length := by
  obtain ⟨t, rfl⟩ := endsWithSlash_iff.mp h
  have : rstripSlash (t ++ ['/']) = rstripSlash t := by
    simp [rstripSlash, List.dropWhile_cons]
  rw [this]
  calc (rstripSlash t).length ≤ t.length := rstripSlash_length_le t
    _ < (t ++ ['/']).length := by simp

theorem not_endsWithSlash_rstripSlash {s : Str} (h : rstripSlash s ≠ []) :
    endsWithSlash (rstripSlash s) = false := by
  rcases hd : s.reverse.dropWhile (fun c => c == '/') with _ | ⟨c, r⟩
  · exact absurd (by simp [rstripSlash, hd]) h
  · have hc : ¬ (c == '/') = true := by
      have := List.head_dropWhile_not (fun c => c == '/') s.reverse (by simp [hd])
      simpa [hd] using this
    simp only [rstripSlash, hd, endsWithSlash, List.reverse_reverse]
    simpa using fun hcc => hc (by simp [hcc])

/-! Facts about `findSub` (Python `str.find`). -/

theorem findSub_some_isPrefixOf {s pat : Str} {i : Nat} (h : findSub s pat = some i) :
    pat.isPrefixOf (s.drop i) = true := by
  induction s generalizing i with
  | nil =>
    unfold findSub at h
    split at h
    · rename_i hp
      obtain rfl : 0 = i := by simpa using h
      simpa using hp
    · simp at h
  | cons c rest ih =>
    unfold findSub at h
    split at h
    · rename_i hp
      obtain rfl : 0 = i := by simpa using h
      simpa using hp
    · rcases hf : findSub rest pat with _ | j
      · simp [hf] at h
      · simp only [hf, Option.map_some'] at h
        obtain rfl : j + 1 = i := by simpa using h
        simpa using ih hf

theorem findSub_some_le {s pat : Str} {i : Nat} (h : findSub s pat = some i) :
    i + pat.length ≤ s.length := by
  induction s generalizing i with
  | nil =>
    unfold findSub at h
    split at h
    · rename_i hp
      obtain rfl : 0 = i := by simpa using h
      have := (List.isPrefixOf_iff_prefix.mp hp).length_le
      simpa using this
    · simp at h
  | cons c rest ih =>
    unfold findSub at h
    split at h
    · rename_i hp
      obtain rfl : 0 = i := by simpa using h
      have := (List.isPrefixOf_iff_prefix.mp hp).length_le
      simpa using this
    · rcases hf : findSub rest pat with _ | j
      · simp [hf] at h
      · simp only [hf, Option.map_some'] at h
        obtain rfl : j + 1 = i := by simpa using h
        have := ih hf
        simp
        omega

theorem findSub_isSome_iff {s pat : Str} : (findSub s pat).isSome = true ↔ pat <:+: s := by
  induction s with
  | nil =>
    unfold findSub
    constructor
    · intro h
      split at h
      · rename_i hp
        exact (List.isPrefixOf_iff_prefix.mp hp).isInfix
      · simp at h
    · intro h
      have : pat = [] := List.eq_nil_of_infix_nil h
      simp [this]
  | cons c rest ih =>
    unfold findSub
    constructor
    · intro h
      split at h
      · rename_i hp
        exact (List.isPrefixOf_iff_prefix.mp hp).isInfix
      · rcases hf : findSub rest pat with _ | j
        · simp [hf] at h
        · have : pat <:+: rest := ih.mp (by simp [hf])
          exact this.trans (List.suffix_cons c rest).isInfix
    · intro h
      rcases List.infix_cons_iff.mp h with hp | hi
      · simp [List.isPrefixOf_iff_prefix.mpr hp]
      · have := ih.mpr hi
        split
        · simp
        · rcases hf : findSub rest pat with _ | j
          · simp [hf] at this
          · simp [hf]

theorem findSub_eq_none_iff {s pat : Str} : findSub s pat = none ↔ ¬ pat <:+: s := by
  rw [← findSub_isSome_iff]
  rcases findSub s pat with _ | i <;> simp

theorem eq_of_findSub_of_length {s pat : Str} {i : Nat} (h : findSub s pat = some i)
    (hl : pat.length = s.length) : s = pat := by
  have hle := findSub_some_le h
  have hi : i = 0 := by omega
  subst hi
  have hp := findSub_some_isPrefixOf h
  simp only [List.drop_zero] at hp
  exact ((List.isPrefixOf_iff_prefix.mp hp).eq_of_length hl).symm

theorem findSub_self {s : Str} : findSub s s = some 0 := by
  cases s with
  | nil => rfl
  | cons c rest =>
    unfold findSub
    rw [if_pos (List.isPrefixOf_iff_prefix.mpr (List.prefix_refl _))]

/-! Facts about `unquote` (percent-decoding). -/

theorem unquote_cons_hex {a b : Char} (rest : Str) (h : (isHex a && isHex b) = true) :
    unquote ('%' :: a :: b :: rest) =
      Char.ofNat (16 * hexVal a + hexVal b) :: unquote rest := by
  simp [unquote, h]

theorem unquote_cons_nonhex {a b : Char} (rest : Str) (h : ¬ (isHex a && isHex b) = true) :
    unquote ('%' :: a :: b :: rest) = '%' :: unquote (a :: b :: rest) := by
  simp [unquote, h]

theorem unquote_cons_generic (c : Char) (rest : Str)
    (h : ∀ (a b : Char) (r : Str), c = '%' → rest = a :: b :: r → False) :
    unquote (c :: rest) = c :: unquote rest := by
  rw [unquote.eq_def]
  split
  · rename_i heq
    exact absurd heq (by simp)
  · rename_i a b r heq
    injection heq with h1 h2
    exact absurd h1 (fun hc => h a b r hc h2)
  · rename_i c2 r2 hx heq
    injection heq with h1 h2
    subst h1; subst h2; rfl

theorem unquote_length_le (s : Str) : (unquote s).length ≤ s.length := by
  induction s using unquote.induct with
  | case1 => simp [unquote]
  | case2 a b rest h ih =>
    rw [unquote_cons_hex rest h]
    simp
    omega
  | case3 a b rest h ih =>
    rw [unquote_cons_nonhex rest h]
    simp at ih ⊢
    omega
  | case4 c rest h ih =>
    rw [unquote_cons_generic c rest h]
    simp
    omega

theorem unquote_eq_of_length {s : Str} (h : (unquote s).length = s.length) :
    unquote s = s := by
  induction s using unquote.induct with
  | case1 => rfl
  | case2 a b rest hx ih =>
    exfalso
    have h1 := unquote_length_le rest
    rw [unquote_cons_hex rest hx] at h
    simp at h
    omega
  | case3 a b rest hx ih =>
    rw [unquote_cons_nonhex rest hx] at h ⊢
    have : (unquote (a :: b :: rest)).length = (a :: b :: rest).length := by
      simp at h ⊢
      omega
    rw [ih this]
  | case4 c rest hg ih =>
    rw [unquote_cons_generic c rest hg] at h ⊢
    have : (unquote rest).length = rest.length := by
      simp at h
      omega
    rw [ih this]

theorem isHex_slash : isHex '/' = false := by decide

theorem endsWithSlash_unquote {s : Str} (h : endsWithSlash s = true) :
    endsWithSlash (unquote s) = true := by
  induction s using unquote.induct with
  | case1 => simpa using h
  | case2 a b rest hx ih =>
    rcases hr : rest with _ | ⟨r0, rr⟩
    · exfalso
      subst hr
      have hb : b = '/' := by
        have h1 := @endsWithSlash_cons '%' [a, b] (by simp)
        have h2 := @endsWithSlash_cons a [b] (by simp)
        rw [h1, h2] at h
        simpa [endsWithSlash] using h
      subst hb
      rw [isHex_slash] at hx
      simp at hx
    · subst hr
      have hrest : endsWithSlash (r0 :: rr) = true := by
        rw [endsWithSlash_cons '%' (by simp), endsWithSlash_cons a (by simp),
          endsWithSlash_cons b (by simp)] at h
        exact h
      have hu := ih hrest
      rw [unquote_cons_hex (r0 :: rr) hx]
      rwa [endsWithSlash_cons _ (ne_nil_of_endsWithSlash hu)]
  | case3 a b rest hx ih =>
    have htail : endsWithSlash (a :: b :: rest) = true := by
      rwa [endsWithSlash_cons '%' (by simp)] at h
    have hu := ih htail
    rw [unquote_cons_nonhex rest hx]
    rwa [endsWithSlash_cons _ (ne_nil_of_endsWithSlash hu)]
  | case4 c rest hg ih =>
    rw [unquote_cons_generic c rest hg]
    rcases hr : rest with _ | ⟨r0, rr⟩
    · subst hr
      simpa [unquote] using h
    · subst hr
      have hrest : endsWithSlash (r0 :: rr) = true := by
        rwa [endsWithSlash_cons c (by simp)] at h
      have hu := ih hrest
      rwa [endsWithSlash_cons _ (ne_nil_of_endsWithSlash hu)]

theorem endsWithSlash_singleton (c : Char) : endsWithSlash [c] = (c == '/') := by
  simp [endsWithSlash]

theorem unquote_append_aux :
    ∀ (n : Nat) (a b : Str), a.length ≤ n → endsWithSlash a = true →
      unquote (a ++ b) = unquote a ++ unquote b := by
  intro n
  induction n with
  | zero =>
    intro a b hl h
    have : a = [] := List.eq_nil_of_length_eq_zero (by omega)
    subst this
    simp [endsWithSlash] at h
  | succ n ih =>
    intro a b hl h
    rcases a with _ | ⟨c, r⟩
    · simp [endsWithSlash] at h
    by_cases hc : c = '%'
    · subst hc
      rcases r with _ | ⟨x, r2⟩
      · simp [endsWithSlash_singleton] at h
      rcases r2 with _ | ⟨y, r3⟩
      · -- a = ['%', x]; the trailing slash forces x = '/'
        have hx : x = '/' := by
          rw [endsWithSlash_cons '%' (by simp)] at h
          simpa [endsWithSlash_singleton] using h
        subst hx
        rcases b with _ | ⟨b0, bb⟩
        · simp [unquote]
        · rw [show ('%' :: ['/'] ++ (b0 :: bb)) = '%' :: '/' :: b0 :: bb from rfl,
            unquote_cons_nonhex bb (by simp [isHex_slash]),
            unquote_cons_generic '/' (b0 :: bb) (by intro _ _ _ hq _; exact absurd hq (by decide)),
            unquote_cons_generic '%' ['/'] (by intro _ _ _ _ hq; simp at hq),
            unquote_cons_generic '/' [] (by intro _ _ _ _ hq; simp at hq)]
          rfl
      · -- a = '%' :: x :: y :: r3
        by_cases hhex : (isHex x && isHex y) = true
        · rcases r3 with _ | ⟨r0, rr⟩
          · exfalso
            have hy : y = '/' := by
              rw [endsWithSlash_cons '%' (by simp), endsWithSlash_cons x (by simp)] at h
              simpa [endsWithSlash_singleton] using h
            subst hy
            rw [isHex_slash] at hhex
            simp at hhex
          · have hr : endsWithSlash (r0 :: rr) = true := by
              rw [endsWithSlash_cons '%' (by simp), endsWithSlash_cons x (by simp),
                endsWithSlash_cons y (by simp)] at h
              exact h
            have hlen : (r0 :: rr).length ≤ n := by simp at hl ⊢; omega
            rw [show ('%' :: x :: y :: (r0 :: rr) ++ b) = '%' :: x :: y :: ((r0 :: rr) ++ b)
                from rfl,
              unquote_cons_hex _ hhex, unquote_cons_hex _ hhex, ih _ b hlen hr]
            rfl
        · have htail : endsWithSlash (x :: y :: r3) = true := by
            rwa [endsWithSlash_cons '%' (by simp)] at h
          have hlen : (x :: y :: r3).length ≤ n := by simp at hl ⊢; omega
          rw [show ('%' :: x :: y :: r3 ++ b) = '%' :: ((x :: y :: r3) ++ b) from rfl,
            show ((x :: y :: r3) ++ b) = x :: y :: (r3 ++ b) from rfl]
          rw [unquote_cons_nonhex _ hhex, unquote_cons_nonhex _ hhex,
            show (x :: y :: (r3 ++ b)) = (x :: y :: r3) ++ b from rfl, ih _ b hlen htail]
          rfl
    · -- head is not '%': the decoder copies it
      rcases r with _ | ⟨r0, rr⟩
      · have hcs : c = '/' := by simpa [endsWithSlash_singleton] using h
        subst hcs
        rw [show (['/'] ++ b) = '/' :: b from rfl,
          unquote_cons_generic '/' b (by intro _ _ _ hq _; exact absurd hq (by decide)),
          unquote_cons_generic '/' [] (by intro _ _ _ hq _; exact absurd hq (by decide))]
        rfl
      · have hr : endsWithSlash (r0 :: rr) = true := by
          rwa [endsWithSlash_cons c (by simp)] at h
        have hlen : (r0 :: rr).length ≤ n := by simp at hl ⊢; omega
        rw [show ((c :: (r0 :: rr)) ++ b) = c :: ((r0 :: rr) ++ b) from rfl,
          unquote_cons_generic c _ (fun _ _ _ hq _ => hc hq),
          unquote_cons_generic c _ (fun _ _ _ hq _ => hc hq), ih _ b hlen hr]
        rfl

theorem unquote_append {a : Str} (h : endsWithSlash a = true) (b : Str) :
    unquote (a ++ b) = unquote a ++ unquote b :=
  unquote_append_aux a.length a b le_rfl h

/-! The branch structure of `get_sub_path`. -/

/-- The branch `full_path == decoded_initial_part.rstrip("/")` of
`get_sub_path` can never be taken: once the decoded anchor (which ends in a
slash) has been found inside the decoded full path, the full path cannot
equal the stripped, slash-prefixed anchor — the lengths cannot match. -/
theorem not_eq_rstripSlash_of_findSub {full dInit : Str} {i : Nat}
    (hslash : endsWithSlash dInit = true)
    (h : findSub (unquote full) dInit = some i) :
    full ≠ rstripSlash ('/' :: dInit) := by
  intro heq
  have hlen1 : i + dInit.length ≤ (unquote full).length := findSub_some_le h
  have hlen2 : (unquote full).length ≤ full.length := unquote_length_le full
  have hends : endsWithSlash ('/' :: dInit) = true := by
    rw [endsWithSlash_cons '/' (ne_nil_of_endsWithSlash hslash)]
    exact hslash
  have hlen3 : (rstripSlash ('/' :: dInit)).length < ('/' :: dInit).length :=
    rstripSlash_length_lt hends
  have hflen : full.length ≤ dInit.length := by
    rw [heq]
    simpa using Nat.lt_succ_iff.mp (by simpa using hlen3)
  have hulen : (unquote full).length = full.length := by omega
  have huq : unquote full = full := unquote_eq_of_length hulen
  rw [huq] at h
  have hfd : full = dInit := eq_of_findSub_of_length h (by omega)
  have h1 : endsWithSlash full = true := hfd ▸ hslash
  have h2 : endsWithSlash (rstripSlash ('/' :: dInit)) = false :=
    not_endsWithSlash_rstripSlash (by
      rw [← heq]
      exact ne_nil_of_endsWithSlash h1)
  rw [← heq] at h2
  rw [h1] at h2
  exact absurd h2 (by simp)

/-- `get_sub_path` raises exactly when the decoded, slash-normalized anchor
does not occur inside the decoded full path. -/
theorem gsp_eq_error_iff (full init : Str) :
    get_sub_path full init = .error () ↔
      ¬ normSlash (unquote init) <:+: unquote full := by
  rcases hf : findSub (unquote full) (normSlash (unquote init)) with _ | i
  · simp only [get_sub_path, hf]
    constructor
    · intro _
      exact findSub_eq_none_iff.mp hf
    · intro _
      trivial
  · simp only [get_sub_path, hf]
    constructor
    · intro h
      split at h
      · simp at h
      · split at h <;> simp at h
    · intro h
      exact absurd (findSub_isSome_iff.mp (by simp [hf])) h

/-- The fast path of `get_sub_path`: when the raw full path starts with the
raw anchor (and the decoded anchor occurs in the decoded full path), the
literal remainder after the raw anchor is returned. -/
theorem gsp_fast {full init : Str}
    (hinf : normSlash (unquote init) <:+: unquote full)
    (hpre : init.isPrefixOf full = true) :
    get_sub_path full init = .ok (full.drop init.length) := by
  obtain ⟨i, hf⟩ := Option.isSome_iff_exists.mp (findSub_isSome_iff.mpr hinf)
  simp only [get_sub_path, hf]
  rw [if_neg (not_eq_rstripSlash_of_findSub (endsWithSlash_normSlash _) hf)]
  rw [if_pos hpre]

/-- The decoded fallback of `get_sub_path`: without the literal-prefix fast
path, the result is the suffix of the decoded full path immediately after
the first occurrence of the decoded, slash-normalized anchor. -/
theorem gsp_decoded {full init : Str} {i : Nat}
    (hf : findSub (unquote full) (normSlash (unquote init)) = some i)
    (hpre : ¬ init.isPrefixOf full = true) :
    get_sub_path full init =
      .ok ((unquote full).drop (i + (normSlash (unquote init)).length)) := by
  simp only [get_sub_path, hf]
  rw [if_neg (not_eq_rstripSlash_of_findSub (endsWithSlash_normSlash _) hf)]
  rw [if_neg hpre]
  simp

/-! Claims C1, C2, C8, C9: the path-reconciliation functions. -/

/-- C1: counterexample.  The claim says `subPath(a, a)` returns the empty
string and does not raise for every anchor `a`; but for the anchor `"data"`
(which does not end in a slash) `get_sub_path` raises `ValueError`: the
slash-normalized decoded anchor `"data/"` is not found inside the decoded
full path `"data"`. -/
theorem get_sub_path_self_raises_counterexample :
    get_sub_path "data".data "data".data = .error () := by decide

/-- C1 (amended): for every anchor `a`, `subPath(a, a)` returns the empty
string exactly when the percent-decoded anchor ends with a slash; when the
decoded anchor does not end with a slash, the call raises
`AnchorNotFoundError` (`ValueError`) instead — the slash-normalized anchor
cannot occur in the anchor itself. -/
theorem get_sub_path_self (a : Str) :
    (endsWithSlash (unquote a) = true → get_sub_path a a = .ok []) ∧
    (endsWithSlash (unquote a) = false → get_sub_path a a = .error ()) := by
  constructor
  · intro h
    have hn : normSlash (unquote a) = unquote a := normSlash_of_endsWithSlash h
    have hinf : normSlash (unquote a) <:+: unquote a := by
      rw [hn]
    have hpre : a.isPrefixOf a = true :=
      List.isPrefixOf_iff_prefix.mpr (List.prefix_refl _)
    rw [gsp_fast hinf hpre]
    simp
  · intro h
    rw [gsp_eq_error_iff]
    intro hinf
    have hle := hinf.length_le
    simp [normSlash, h] at hle

/-- C1 witness: an anchor ending in a slash, where `subPath(a, a)` does
return the empty string. -/
theorem get_sub_path_self_witness :
    get_sub_path "data/".data "data/".data = .ok [] :=
  (get_sub_path_self "data/".data).1 (by decide)

/-- C2: `get_sub_path` raises `AnchorNotFoundError` exactly when the
percent-decoded full path does not contain the percent-decoded,
slash-normalized anchor as a substring; otherwise, when the raw full path
starts with the raw anchor it returns the literal remainder (preserving the
original encoding), and otherwise it returns the suffix of the decoded full
path immediately following the first occurrence of the decoded anchor. -/
theorem get_sub_path_spec (full init : Str) :
    (get_sub_path full init = .error () ↔
      ¬ normSlash (unquote init) <:+: unquote full) ∧
    (normSlash (unquote init) <:+: unquote full → init.isPrefixOf full = true →
      get_sub_path full init = .ok (full.drop init.length)) ∧
    (∀ i, findSub (unquote full) (normSlash (unquote init)) = some i →
      ¬ init.isPrefixOf full = true →
      get_sub_path full init =
        .ok ((unquote full).drop (i + (normSlash (unquote init)).length))) :=
  ⟨gsp_eq_error_iff full init, fun hinf hpre => gsp_fast hinf hpre,
   fun _ hf hpre => gsp_decoded hf hpre⟩

/-- C2 witness: the claim's own example,
`subPath("/data/subfolder1/text.txt", "data") = "subfolder1/text.txt"`. -/
theorem get_sub_path_spec_witness :
    get_sub_path "/data/subfolder1/text.txt".data "data".data =
      .ok "subfolder1/text.txt".data := by
  have h := (get_sub_path_spec "/data/subfolder1/text.txt".data "data".data).2.2 1
    (by decide) (by decide)
  exact h.trans (by decide)

/-- C8: `filter_after_global_base_path` returns the portion of the path
after the first occurrence of the literal substring `"/" + base + "/"` when
that substring occurs, and the path unchanged (without raising) when it
does not. -/
theorem filter_after_global_base_path_spec (path base : Str) :
    (('/' :: (base ++ ['/'])) <:+: path →
      ∃ i, findSub path ('/' :: (base ++ ['/'])) = some i ∧
        filter_after_global_base_path path base = path.drop (i + base.length + 2)) ∧
    (¬ ('/' :: (base ++ ['/'])) <:+: path →
      filter_after_global_base_path path base = path) := by
  constructor
  · intro hinf
    obtain ⟨i, hf⟩ := Option.isSome_iff_exists.mp (findSub_isSome_iff.mpr hinf)
    refine ⟨i, hf, ?_⟩
    simp only [filter_after_global_base_path, hf]
    congr 1
    simp
    omega
  · intro hinf
    have hf := findSub_eq_none_iff.mpr hinf
    simp only [filter_after_global_base_path, hf]

/-- C8 witness: the claim's own example,
`stripBasePrefix("https://host/data/example1", "data") = "example1"`, and
the unchanged return on a non-match. -/
theorem filter_after_global_base_path_spec_witness :
    filter_after_global_base_path "https://host/data/example1".data "data".data =
        "example1".data ∧
      filter_after_global_base_path "nomatch".data "data".data = "nomatch".data := by
  constructor
  · obtain ⟨i, hf, he⟩ :=
      (filter_after_global_base_path_spec "https://host/data/example1".data "data".data).1
        (by decide)
    have hi : i = 12 := by
      have h12 : findSub "https://host/data/example1".data ('/' :: ("data".data ++ ['/'])) =
          some 12 := by decide
      simpa using hf.symm.trans h12
    subst hi
    exact he.trans (by decide)
  · exact (filter_after_global_base_path_spec "nomatch".data "data".data).2 (by decide)

/-- C9: counterexample.  The claim says the two historical `get_sub_path`
implementations agree whenever the raw full path starts with the
slash-normalized anchor; but on full path `"data/x"` and anchor `"data"`
(whose normalization `"data/"` is a literal prefix of the full path) the
old version drops the normalized anchor and returns `"x"` while the new
version drops only the raw anchor and returns `"/x"`. -/
theorem get_sub_path_old_new_counterexample :
    ("data/".data).isPrefixOf "data/x".data = true ∧
    get_sub_path_old "data/x".data "data".data = .ok "x".data ∧
    get_sub_path "data/x".data "data".data = .ok "/x".data := by decide

/-- C9 (amended): when the anchor itself ends with a slash and the raw full
path starts with it, both implementations return the same remainder; and
there are encoded-style inputs — e.g. `("/data/x", "data")` — where the
permissive version returns a sub-path while the strict historical version
raises `ValueError`. -/
theorem get_sub_path_old_new :
    (∀ full init : Str, endsWithSlash init = true → init.isPrefixOf full = true →
      get_sub_path_old full init = .ok (full.drop init.length) ∧
      get_sub_path full init = .ok (full.drop init.length)) ∧
    (get_sub_path "/data/x".data "data".data = .ok "x".data ∧
     get_sub_path_old "/data/x".data "data".data = .error ()) := by
  constructor
  · intro full init hslash hpre
    obtain ⟨t, rfl⟩ : ∃ t, full = init ++ t := by
      obtain ⟨t, ht⟩ := List.isPrefixOf_iff_prefix.mp hpre
      exact ⟨t, ht.symm⟩
    constructor
    · have hne : ¬ (init ++ t = rstripSlash init) := by
        intro heq
        have h1 : (rstripSlash init).length < init.length := rstripSlash_length_lt hslash
        have h2 := congrArg List.length heq
        simp at h2
        omega
      simp only [get_sub_path_old, normSlash_of_endsWithSlash hslash]
      rw [if_neg hne, if_pos hpre]
    · have hinf : normSlash (unquote init) <:+: unquote (init ++ t) := by
        rw [normSlash_of_endsWithSlash (endsWithSlash_unquote hslash),
          unquote_append hslash]
        exact (List.prefix_append _ _).isInfix
      exact gsp_fast hinf hpre
  · constructor <;> decide

/-- C9 witness: a slash-terminated anchor on which both versions agree. -/
theorem get_sub_path_old_new_witness :
    get_sub_path_old "data/x".data "data/".data = .ok "x".data ∧
    get_sub_path "data/x".data "data/".data = .ok "x".data := by
  have h := get_sub_path_old_new.1 "data/x".data "data/".data (by decide) (by decide)
  exact ⟨h.1.trans (by decide), h.2.trans (by decide)⟩

/-! Claims C6 and C7: the directory listers. -/

theorem foldl_filter (p : Str → Bool) :
    ∀ (l acc : List Str),
      l.foldl (fun fs h => if p h then fs ++ [h] else fs) acc = acc ++ l.filter p := by
  intro l
  induction l with
  | nil => intro acc; simp
  | cons h t ih =>
    intro acc
    by_cases hp : p h <;> simp [hp, ih, List.filter_cons]

theorem foldl_filter_map (p : Str → Bool) (f : Str → Str) :
    ∀ (l acc : List Str),
      l.foldl (fun fs h => if p h then fs ++ [f h] else fs) acc =
        acc ++ (l.filter p).map f := by
  intro l
  induction l with
  | nil => intro acc; simp
  | cons h t ih =>
    intro acc
    by_cases hp : p h <;> simp [hp, ih, List.filter_cons]

theorem list_folders_loop_eq (hostname base : Str) (hrefs : List Str) :
    list_folders_loop hostname base hrefs =
      (hrefs.filter (fun h => list_folders_keep hostname base h)).map
        (fun h => posixName (rstripSlash h)) := by
  have h := foldl_filter_map (fun h => list_folders_keep hostname base h)
    (fun h => posixName (rstripSlash h)) hrefs []
  simpa [list_folders_loop] using h

/-- C6: on a 207 (multistatus) PROPFIND response, `list_files` returns
exactly the child hrefs that do not end in `"/"`, in the server's response
order (the result is the order-preserving filter of the response); on any
other status, both `list_files` and `list_folders` raise an `OSError`
carrying that status code, whose message contains the decimal status
code. -/
theorem listing_status_spec (hostname base : Str) (status : Nat) (hrefs : List Str) :
    (status = 207 →
      list_files status hrefs = .ok (hrefs.filter (fun h => !endsWithSlash h))) ∧
    (status ≠ 207 →
      list_files status hrefs = .error (status, list_files_error_message status) ∧
      Nat.toDigits 10 status <:+: list_files_error_message status ∧
      list_folders hostname base status hrefs =
        .error (status, list_folders_error_message status) ∧
      Nat.toDigits 10 status <:+: list_folders_error_message status) := by
  constructor
  · intro h
    subst h
    simp only [list_files, ne_eq, not_true_eq_false, if_false, reduceIte]
    rw [foldl_filter (fun h => !endsWithSlash h) hrefs []]
    simp
  · intro h
    refine ⟨by simp [list_files, h], ?_, by simp [list_folders, h], ?_⟩
    · exact (List.suffix_append _ _).isInfix
    · exact (List.suffix_append _ _).isInfix

/-- C6 witness: a 403 PROPFIND makes both listers fail with 403, and a 207
response lists exactly the non-slash hrefs in order. -/
theorem listing_status_spec_witness :
    list_files 403 ["/data/a.txt".data] =
        .error (403, list_files_error_message 403) ∧
      list_folders "h".data "data".data 403 ["/data/a.txt".data] =
        .error (403, list_folders_error_message 403) ∧
      list_files 207 ["/data/a.txt".data, "/data/sub/".data, "/data/b.txt".data] =
        .ok ["/data/a.txt".data, "/data/b.txt".data] := by
  obtain ⟨h1, _, h2, _⟩ :=
    (listing_status_spec "h".data "data".data 403 ["/data/a.txt".data]).2 (by decide)
  refine ⟨h1, h2, ?_⟩
  have h3 := (listing_status_spec "h".data "data".data 207
    ["/data/a.txt".data, "/data/sub/".data, "/data/b.txt".data]).1 rfl
  exact h3.trans (by decide)

/-- C7: counterexample.  The claim's iff fails on the parent-echo guard:
with hostname `"h"`, parent path `""` and a 207 response containing the
single href `"h/"`, that href ends in `"/"` and its basename `"h"` neither
is hidden nor equals the last path segment of the parent path, yet
`list_folders` returns the empty listing, because the href equals the
requested URL plus `"/"`. -/
theorem list_folders_parent_echo_counterexample :
    list_folders "h".data "".data 207 ["h/".data] = .ok [] ∧
    endsWithSlash "h/".data = true ∧
    posixName (rstripSlash "h/".data) = "h".data ∧
    ¬ ['.'].isPrefixOf "h".data = true ∧
    "h".data ≠ lastSeg "".data := by decide

/-- C7 (amended): for every folder name `f` that does not start with `"."`
and is not equal to the last path segment of the parent path,
`list_folders` includes `f` iff the 207 response contains a child href
ending in `"/"`, different from the requested URL plus `"/"`, whose
basename is `f`; the returned names keep the server's response order (the
listing distributes over concatenation of the response); and no returned
name ever is hidden or equal to the parent's last segment, and every
returned name comes from a trailing-slash href different from the
requested URL plus `"/"` — so hrefs without the trailing slash and the
URL-echo href never contribute. -/
theorem list_folders_loop_spec (hostname base f : Str) (hrefs : List Str)
    (hdot : ¬ ['.'].isPrefixOf f = true) (hseg : f ≠ lastSeg base) :
    (f ∈ list_folders_loop hostname base hrefs ↔
      ∃ href ∈ hrefs, endsWithSlash href = true ∧
        href ≠ join_remote_url [hostname, base] ++ ['/'] ∧
        posixName (rstripSlash href) = f) ∧
    (∀ hrefs2, list_folders_loop hostname base (hrefs ++ hrefs2) =
      list_folders_loop hostname base hrefs ++ list_folders_loop hostname base hrefs2) ∧
    (∀ g ∈ list_folders_loop hostname base hrefs,
      ¬ ['.'].isPrefixOf g = true ∧ g ≠ lastSeg base ∧
      ∃ href ∈ hrefs, endsWithSlash href = true ∧
        href ≠ join_remote_url [hostname, base] ++ ['/'] ∧
        posixName (rstripSlash href) = g) := by
  refine ⟨?_, ?_, ?_⟩
  · rw [list_folders_loop_eq]
    constructor
    · intro hmem
      obtain ⟨href, hh, hname⟩ := List.mem_map.mp hmem
      obtain ⟨hin, hkeep⟩ := List.mem_filter.mp hh
      simp only [list_folders_keep, Bool.and_eq_true, Bool.not_eq_true'] at hkeep
      obtain ⟨⟨hfold, hurl, _⟩, _⟩ := hkeep
      refine ⟨href, hin, hfold, ?_, hname⟩
      simpa using hurl
    · rintro ⟨href, hin, hfold, hurl, hname⟩
      refine List.mem_map.mpr ⟨href, List.mem_filter.mpr ⟨hin, ?_⟩, hname⟩
      simp only [list_folders_keep, Bool.and_eq_true, Bool.not_eq_true']
      refine ⟨⟨hfold, by simpa using hurl, ?_⟩, ?_⟩
      · rw [hname]
        simpa using fun hc => hseg (by simpa using hc)
      · rw [hname, Bool.eq_false_iff]
        exact hdot
  · intro hrefs2
    rw [list_folders_loop_eq, list_folders_loop_eq, list_folders_loop_eq,
      List.filter_append, List.map_append]
  · intro g hg
    rw [list_folders_loop_eq] at hg
    obtain ⟨href, hh, hname⟩ := List.mem_map.mp hg
    obtain ⟨hin, hkeep⟩ := List.mem_filter.mp hh
    simp only [list_folders_keep, Bool.and_eq_true, Bool.not_eq_true'] at hkeep
    obtain ⟨⟨hfold, hurl, hlast⟩, hhid⟩ := hkeep
    refine ⟨?_, ?_, href, hin, hfold, by simpa using hurl, hname⟩
    · rw [← hname, hhid]
      simp
    · rw [← hname]
      simpa using hlast

/-- C7 witness: a subfolder href below the parent is listed under its
basename. -/
theorem list_folders_loop_spec_witness :
    "sub".data ∈ list_folders_loop "h".data "data".data ["h/data/sub/".data] := by
  exact ((list_folders_loop_spec "h".data "data".data "sub".data ["h/data/sub/".data]
    (by decide) (by decide)).1).mpr
    ⟨"h/data/sub/".data, by simp, by decide, by decide, by decide⟩

/-! Claims C3 and C10: the per-folder downloader. -/

theorem dlStep_ok {g r lb href : Str}
    (hinf : normSlash (unquote g) <:+: unquote href) :
    ∃ p, dlStep g r lb href = .ok p := by
  unfold dlStep
  rcases hg : get_sub_path href g with e | sp
  · exfalso
    have : get_sub_path href g = .error () := by
      rw [hg]
    exact (gsp_eq_error_iff href g).mp this hinf
  · exact ⟨_, rfl⟩

theorem download_files_eq_dlLoop (hostname g r lb : Str) (get : Str → Nat × List Nat)
    (hrefs : List Str) (fs : Fs) :
    download_files hostname g r lb get 207 hrefs fs =
      dlLoop hostname g r lb get (hrefs.filter (fun h => !endsWithSlash h)) fs := by
  have hlf : list_files 207 hrefs = .ok (hrefs.filter (fun h => !endsWithSlash h)) := by
    simp only [list_files, ne_eq, not_true_eq_false, if_false, reduceIte]
    rw [foldl_filter (fun h => !endsWithSlash h) hrefs []]
    simp
  simp only [download_files, hlf]

theorem dlLoop_spec (hostname g r lb : Str) (get : Str → Nat × List Nat) :
    ∀ (files : List Str) (fs : Fs),
      (∀ h ∈ files, normSlash (unquote g) <:+: unquote h) →
      dlLoop hostname g r lb get files fs =
        ⟨files.map (fun h => dlRequestUrl hostname r h),
         applyWrites fs (files.filterMap (fun h => dlWrite hostname g r lb get h)),
         none⟩ := by
  intro files
  induction files with
  | nil => intro fs _; rfl
  | cons h t ih =>
    intro fs hall
    obtain ⟨p, hp⟩ := @dlStep_ok g r lb h (hall h (by simp))
    have iht := ih (if (get (dlRequestUrl hostname r h)).1 = 200 then
        fsWrite fs p (get (dlRequestUrl hostname r h)).2 else fs)
      (fun x hx => hall x (by simp [hx]))
    simp only [dlLoop, hp, iht]
    simp only [List.map_cons, List.filterMap_cons, dlWrite, hp]
    by_cases hst : (get (dlRequestUrl hostname r h)).1 = 200
    · simp only [hst, if_true, if_pos rfl, applyWrites]
    · simp only [hst, if_false, if_neg hst, applyWrites]

/-- C3: counterexample.  The folder's listing succeeds (207) and one file's
GET answers 404, but `download_files` does not merely skip that file and
return: a later href (`"nope"`) does not contain the decoded anchor, so
`get_sub_path` raises and the whole call aborts with a `ValueError`. -/
theorem download_files_abort_counterexample :
    (download_files "h".data "data".data "data".data "out".data
        (fun u => if u = "h/data/a.txt".data then (200, [1]) else (404, []))
        207 ["/data/a.txt".data, "/data/b.txt".data, "nope".data] []).err =
      some .anchorFail := by decide

/-- C3 (amended): provided every listed file href contains the decoded
global anchor (so `get_sub_path` raises on none of them), `download_files`
on a folder whose listing succeeds returns without raising, writes exactly
the files whose GET answers 200 — each at its computed destination, in
listing order — and skips (writes nothing for) every file whose GET answers
any other status; a folder listing zero files returns successfully with the
filesystem unchanged. -/
theorem download_files_skip_spec (hostname g r lb : Str) (get : Str → Nat × List Nat)
    (hrefs : List Str) (fs : Fs) :
    ((∀ h ∈ hrefs.filter (fun h => !endsWithSlash h),
        normSlash (unquote g) <:+: unquote h) →
      download_files hostname g r lb get 207 hrefs fs =
        ⟨(hrefs.filter (fun h => !endsWithSlash h)).map
            (fun h => dlRequestUrl hostname r h),
         applyWrites fs ((hrefs.filter (fun h => !endsWithSlash h)).filterMap
            (fun h => dlWrite hostname g r lb get h)),
         none⟩) ∧
    (hrefs.filter (fun h => !endsWithSlash h) = [] →
      download_files hostname g r lb get 207 hrefs fs = ⟨[], fs, none⟩) := by
  constructor
  · intro hanchor
    rw [download_files_eq_dlLoop]
    exact dlLoop_spec hostname g r lb get _ fs hanchor
  · intro hempty
    rw [download_files_eq_dlLoop, hempty]
    rfl

/-- C3 witness: a folder with three files where the middle GET answers 404 —
the two 200 files are written, the 404 one is skipped, no error is
raised — and a folder listing zero files returns successfully. -/
theorem download_files_skip_spec_witness :
    download_files "h".data "data".data "data".data "out".data
        (fun u => if u = "h/data/b.txt".data then (404, []) else (200, [7]))
        207 ["/data/a.txt".data, "/data/b.txt".data, "/data/c.txt".data] [] =
      ⟨["h/data/a.txt".data, "h/data/b.txt".data, "h/data/c.txt".data],
       [("out/c.txt".data, [7]), ("out/a.txt".data, [7])], none⟩ ∧
    download_files "h".data "data".data "data".data "out".data
        (fun _ => (200, [7])) 207 ["/data/sub/".data] [] = ⟨[], [], none⟩ := by
  constructor
  · have h := (download_files_skip_spec "h".data "data".data "data".data "out".data
      (fun u => if u = "h/data/b.txt".data then (404, []) else (200, [7]))
      ["/data/a.txt".data, "/data/b.txt".data, "/data/c.txt".data] []).1 (by decide)
    exact h.trans (by decide)
  · exact (download_files_skip_spec "h".data "data".data "data".data "out".data
      (fun _ => (200, [7])) ["/data/sub/".data] []).2 (by decide)

theorem dlLoop_requests (hostname g r lb : Str) (get : Str → Nat × List Nat) :
    ∀ (files : List Str) (fs : Fs),
      ∃ n, (dlLoop hostname g r lb get files fs).requests =
          (files.take n).map (fun h => dlRequestUrl hostname r h) ∧
        ((dlLoop hostname g r lb get files fs).err = none → n = files.length) := by
  intro files
  induction files with
  | nil => intro fs; exact ⟨0, rfl, fun _ => rfl⟩
  | cons h t ih =>
    intro fs
    rcases hp : dlStep g r lb h with e | p
    · refine ⟨0, ?_, ?_⟩
      · simp [dlLoop, hp]
      · intro herr
        simp [dlLoop, hp] at herr
    · obtain ⟨n, hreq, herr⟩ := ih (if (get (dlRequestUrl hostname r h)).1 = 200 then
        fsWrite fs p (get (dlRequestUrl hostname r h)).2 else fs)
      refine ⟨n + 1, ?_, ?_⟩
      · simp only [dlLoop, hp, List.take_succ_cons, List.map_cons]
        rw [hreq]
      · intro hnone
        simp only [dlLoop, hp] at hnone
        simp [herr hnone]

/-- C10: `download_files` never issues the GET against the raw href — the
request URLs it issues are, in order, exactly
`joinRemote(hostname, remoteFolder, stripBasePrefix(href, remoteFolder))`
for each processed file href (all of them when no error aborts the loop);
and when `"/" + remoteFolder + "/"` does not occur in an href, the rebuilt
prefix leaves the href unmodified, so the GET targets
`joinRemote(hostname, remoteFolder, href)` and the decoded local file name
is the percent-decoding of the entire href. -/
theorem download_files_request_rebuild (hostname g r lb : Str)
    (get : Str → Nat × List Nat) (status : Nat) (hrefs : List Str) (fs : Fs) :
    (∃ n, (download_files hostname g r lb get status hrefs fs).requests =
        ((hrefs.filter (fun h => !endsWithSlash h)).take n).map
          (fun h => dlRequestUrl hostname r h) ∧
      ((download_files hostname g r lb get status hrefs fs).err = none →
        n = (hrefs.filter (fun h => !endsWithSlash h)).length)) ∧
    (∀ href, ¬ ('/' :: (r ++ ['/'])) <:+: href →
      dlFileName r href = href ∧
      dlRequestUrl hostname r href = join_remote_url [hostname, r, href] ∧
      dlDecodedName r href = unquote href) := by
  constructor
  · by_cases hst : status = 207
    · subst hst
      rw [download_files_eq_dlLoop]
      exact dlLoop_requests hostname g r lb get _ fs
    · refine ⟨0, ?_, ?_⟩
      · simp [download_files, list_files, hst]
      · intro herr
        simp [download_files, list_files, hst] at herr
  · intro href hocc
    have hname : dlFileName r href = href := by
      unfold dlFileName
      exact (filter_after_global_base_path_spec href r).2 hocc
    exact ⟨hname, by rw [dlRequestUrl, hname], by rw [dlDecodedName, hname]⟩

/-- C10 witness: an href without the `"/" + remoteFolder + "/"` marker is
used whole — GET targets the hostname/folder/href rebuild and the local
name is the decoding of the entire href. -/
theorem download_files_request_rebuild_witness :
    dlFileName "data".data "files%2Fx.txt".data = "files%2Fx.txt".data ∧
    dlRequestUrl "h".data "data".data "files%2Fx.txt".data =
      join_remote_url ["h".data, "data".data, "files%2Fx.txt".data] ∧
    dlDecodedName "data".data "files%2Fx.txt".data = unquote "files%2Fx.txt".data :=
  (download_files_request_rebuild "h".data "data".data "data".data "out".data
    (fun _ => (200, [])) 207 [] []).2 "files%2Fx.txt".data (by decide)

/-! Claims C4 and C5: the tree walker. -/

theorem applyWrites_append (W1 W2 : List (Str × List Nat)) :
    ∀ fs : Fs, applyWrites fs (W1 ++ W2) = applyWrites (applyWrites fs W1) W2 := by
  induction W1 with
  | nil => intro fs; rfl
  | cons e t ih =>
    intro fs
    obtain ⟨k, v⟩ := e
    simp only [List.cons_append, applyWrites]
    exact ih (fsWrite fs k v)

theorem fsLookup_fsWrite (fs : Fs) (a : Str) (b : List Nat) (k : Str) :
    fsLookup (fsWrite fs a b) k = if a == k then some b else fsLookup fs k := by
  rcases hak : (a == k) with _ | _
  · have hak' : ¬ a = k := by simpa using hak
    simp only [fsLookup, fsWrite, List.find?_cons, hak, if_false]
    congr 1
    induction fs with
    | nil => rfl
    | cons e t ih =>
      rcases hea : (e.1 == a) with _ | _
      · rw [List.filter_cons]
        simp only [hea, Bool.not_false, if_pos]
        rw [List.find?_cons, List.find?_cons]
        rcases hek : (e.1 == k) with _ | _ <;> simp [hek, ih]
      · have hek : (e.1 == k) = false := by
          have h1 : e.1 = a := by simpa using hea
          simpa [h1] using hak'
        rw [List.filter_cons]
        simp only [hea, Bool.not_true, Bool.false_eq_true, if_false, ih]
        rw [List.find?_cons]
        simp [hek]
  · have hak' : a = k := by simpa using hak
    subst hak'
    simp [fsLookup, fsWrite, List.find?_cons]

theorem fsLookup_applyWrites (W : List (Str × List Nat)) :
    ∀ (fs : Fs) (k : Str),
      fsLookup (applyWrites fs W) k =
        match W.reverse.find? (fun e => e.1 == k) with
        | some e => some e.2
        | none => fsLookup fs k := by
  induction W with
  | nil => intro fs k; rfl
  | cons e t ih =>
    intro fs k
    obtain ⟨a, b⟩ := e
    simp only [applyWrites, ih, List.reverse_cons, List.find?_append]
    rcases hf : t.reverse.find? (fun e => e.1 == k) with _ | x
    · rw [fsLookup_fsWrite]
      rcases hak : (a == k) with _ | _ <;>
        simp [hf, hak, List.find?_cons]
    · simp [hf]

theorem fsLookup_applyWrites_idem (W : List (Str × List Nat)) (fs : Fs) (k : Str) :
    fsLookup (applyWrites (applyWrites fs W) W) k = fsLookup (applyWrites fs W) k := by
  rw [fsLookup_applyWrites, fsLookup_applyWrites]
  rcases hf : W.reverse.find? (fun e => e.1 == k) with _ | x <;> simp [hf]

theorem dlLoop_plan (hostname g r lb : Str) (get : Str → Nat × List Nat) :
    ∀ files : List Str, ∃ (R : List Str) (W : List (Str × List Nat)) (E : Option DlErr),
      ∀ fs : Fs, dlLoop hostname g r lb get files fs = ⟨R, applyWrites fs W, E⟩ := by
  intro files
  induction files with
  | nil => exact ⟨[], [], none, fun fs => rfl⟩
  | cons h t ih =>
    obtain ⟨R, W, E, hplan⟩ := ih
    rcases hp : dlStep g r lb h with e | p
    · exact ⟨[], [], some .anchorFail, fun fs => by simp [dlLoop, hp, applyWrites]⟩
    · by_cases hst : (get (dlRequestUrl hostname r h)).1 = 200
      · refine ⟨dlRequestUrl hostname r h :: R,
          (p, (get (dlRequestUrl hostname r h)).2) :: W, E, fun fs => ?_⟩
        simp only [dlLoop, hp, hst, if_true, if_pos rfl, hplan, applyWrites]
      · refine ⟨dlRequestUrl hostname r h :: R, W, E, fun fs => ?_⟩
        simp only [dlLoop, hp, hst, if_false, if_neg hst, hplan]

theorem download_files_plan (hostname g r lb : Str) (get : Str → Nat × List Nat)
    (status : Nat) (hrefs : List Str) :
    ∃ (R : List Str) (W : List (Str × List Nat)) (E : Option DlErr),
      ∀ fs : Fs, download_files hostname g r lb get status hrefs fs =
        ⟨R, applyWrites fs W, E⟩ := by
  by_cases hst : status = 207
  · subst hst
    obtain ⟨R, W, E, hplan⟩ :=
      dlLoop_plan hostname g r lb get (hrefs.filter (fun h => !endsWithSlash h))
    exact ⟨R, W, E, fun fs => by rw [download_files_eq_dlLoop]; exact hplan fs⟩
  · refine ⟨[], [], some (.listFail status (list_files_error_message status)),
      fun fs => ?_⟩
    simp [download_files, list_files, hst, applyWrites]

theorem walk_plan_aux (hostname g lb : Str) (get : Str → Nat × List Nat) :
    ∀ (n : Nat) (stack : List (Str × RTree)), subsListSize stack ≤ n →
      ∃ (T : List Str) (W : List (Str × List Nat)) (E : Option DlErr),
        ∀ fs : Fs, walk hostname g lb get stack fs = ⟨T, applyWrites fs W, E⟩ := by
  intro n
  induction n with
  | zero =>
    intro stack hle
    rcases stack with _ | ⟨⟨current, t⟩, rest⟩
    · exact ⟨[], [], none, fun fs => by simp [walk, applyWrites]⟩
    · exfalso
      rcases t with ⟨files, subs⟩
      simp [subsListSize, treeSize] at hle
  | succ n ih =>
    intro stack hle
    rcases stack with _ | ⟨⟨current, t⟩, rest⟩
    · exact ⟨[], [], none, fun fs => by simp [walk, applyWrites]⟩
    rcases t with ⟨files, subs⟩
    obtain ⟨R, W, E, hdl⟩ := download_files_plan hostname g current lb get 207
      (files ++ subs.map Prod.fst)
    rcases E with _ | e
    · -- the folder downloads without error; the walk continues
      have hlt := subsListSize_pushed_lt hostname current files subs rest
      obtain ⟨T2, W2, E2, hwalk⟩ := ih ((pushedSubs hostname current subs).reverse ++ rest)
        (by omega)
      refine ⟨current :: T2, W ++ W2, E2, fun fs => ?_⟩
      simp only [walk, hdl fs, hwalk (applyWrites fs W), applyWrites_append]
    · refine ⟨[current], W, some e, fun fs => ?_⟩
      simp only [walk, hdl fs]

theorem walk_plan (hostname g lb : Str) (get : Str → Nat × List Nat)
    (stack : List (Str × RTree)) :
    ∃ (T : List Str) (W : List (Str × List Nat)) (E : Option DlErr),
      ∀ fs : Fs, walk hostname g lb get stack fs = ⟨T, applyWrites fs W, E⟩ :=
  walk_plan_aux hostname g lb get (subsListSize stack) stack le_rfl

theorem subsListSize_cons_node (c : Str) (files : List Str) (subs rest : List (Str × RTree)) :
    subsListSize ((c, RTree.node files subs) :: rest) =
      1 + subsListSize subs + subsListSize rest := by
  simp [subsListSize, treeSize]

theorem subsListSize_pushed_le (hostname c : Str) (subs : List (Str × RTree)) :
    subsListSize (pushedSubs hostname c subs) ≤ subsListSize subs := by
  rw [pushedSubs, subsListSize_map_snd]
  exact subsListSize_filter_le _ subs

theorem reachStack_append_aux (hostname : Str) :
    ∀ (n : Nat) (a b : List (Str × RTree)), subsListSize a ≤ n →
      reachStack hostname (a ++ b) = reachStack hostname a ++ reachStack hostname b := by
  intro n
  induction n with
  | zero =>
    intro a b hle
    rcases a with _ | ⟨⟨c, t⟩, rest⟩
    · simp [reachStack]
    · exfalso
      rcases t with ⟨files, subs⟩
      rw [subsListSize_cons_node] at hle
      omega
  | succ n ih =>
    intro a b hle
    rcases a with _ | ⟨⟨c, t⟩, rest⟩
    · simp [reachStack]
    rcases t with ⟨files, subs⟩
    have hlt : subsListSize (pushedSubs hostname c subs ++ rest) ≤ n := by
      have h1 := subsListSize_pushed_le hostname c subs
      have h2 := subsListSize_append (pushedSubs hostname c subs) rest
      rw [subsListSize_cons_node] at hle
      omega
    simp only [List.cons_append, reachStack]
    rw [show pushedSubs hostname c subs ++ (rest ++ b) =
        (pushedSubs hostname c subs ++ rest) ++ b by simp, ih _ b hlt]

theorem reachStack_append (hostname : Str) (a b : List (Str × RTree)) :
    reachStack hostname (a ++ b) = reachStack hostname a ++ reachStack hostname b :=
  reachStack_append_aux hostname (subsListSize a) a b le_rfl

theorem reachStack_reverse_perm (hostname : Str) (l : List (Str × RTree)) :
    (reachStack hostname l.reverse).Perm (reachStack hostname l) := by
  induction l with
  | nil => simp
  | cons x t ih =>
    obtain ⟨c, tr⟩ := x
    rw [List.reverse_cons, reachStack_append hostname t.reverse [(c, tr)]]
    refine ((ih.append_right _).trans List.perm_append_comm).trans ?_
    rw [show ((c, tr) :: t) = [(c, tr)] ++ t from rfl, reachStack_append]

theorem walk_trace_length_aux (hostname g lb : Str) (get : Str → Nat × List Nat) :
    ∀ (n : Nat) (stack : List (Str × RTree)) (fs : Fs), subsListSize stack ≤ n →
      (walk hostname g lb get stack fs).trace.length ≤ subsListSize stack := by
  intro n
  induction n with
  | zero =>
    intro stack fs hle
    rcases stack with _ | ⟨⟨current, t⟩, rest⟩
    · simp [walk]
    · exfalso
      rcases t with ⟨files, subs⟩
      rw [subsListSize_cons_node] at hle
      omega
  | succ n ih =>
    intro stack fs hle
    rcases stack with _ | ⟨⟨current, t⟩, rest⟩
    · simp [walk]
    rcases t with ⟨files, subs⟩
    rw [subsListSize_cons_node] at hle ⊢
    rcases hE : (download_files hostname g current lb get 207
        (files ++ subs.map Prod.fst) fs).err with _ | e
    · have hlt := subsListSize_pushed_lt hostname current files subs rest
      rw [subsListSize_cons_node] at hlt
      have h2 := subsListSize_append (pushedSubs hostname current subs).reverse rest
      have h3 := subsListSize_reverse (pushedSubs hostname current subs)
      have ihh := ih ((pushedSubs hostname current subs).reverse ++ rest)
        (download_files hostname g current lb get 207 (files ++ subs.map Prod.fst) fs).fs
        (by omega)
      simp only [walk, hE]
      simp only [List.length_cons]
      omega
    · simp only [walk, hE]
      simp only [List.length_cons, List.length_nil]
      omega

theorem walk_trace_perm_aux (hostname g lb : Str) (get : Str → Nat × List Nat) :
    ∀ (n : Nat) (stack : List (Str × RTree)) (fs : Fs), subsListSize stack ≤ n →
      (walk hostname g lb get stack fs).err = none →
      (walk hostname g lb get stack fs).trace.Perm (reachStack hostname stack) := by
  intro n
  induction n with
  | zero =>
    intro stack fs hle _
    rcases stack with _ | ⟨⟨current, t⟩, rest⟩
    · simp [walk, reachStack]
    · exfalso
      rcases t with ⟨files, subs⟩
      rw [subsListSize_cons_node] at hle
      omega
  | succ n ih =>
    intro stack fs hle herr
    rcases stack with _ | ⟨⟨current, t⟩, rest⟩
    · simp [walk, reachStack]
    rcases t with ⟨files, subs⟩
    rcases hE : (download_files hostname g current lb get 207
        (files ++ subs.map Prod.fst) fs).err with _ | e
    · have hlt := subsListSize_pushed_lt hostname current files subs rest
      rw [subsListSize_cons_node] at hlt hle
      have h2 := subsListSize_append (pushedSubs hostname current subs).reverse rest
      have h3 := subsListSize_reverse (pushedSubs hostname current subs)
      simp only [walk, hE] at herr ⊢
      have ihh := ih ((pushedSubs hostname current subs).reverse ++ rest)
        (download_files hostname g current lb get 207 (files ++ subs.map Prod.fst) fs).fs
        (by omega) herr
      rw [reachStack]
      refine List.Perm.cons current ?_
      refine ihh.trans ?_
      rw [reachStack_append, reachStack_append]
      exact (reachStack_reverse_perm hostname _).append_right _
    · simp only [walk, hE] at herr
      simp at herr

/-- C4: counterexample.  A finite, tree-shaped hierarchy whose root folder
contains a file href (`"x"`) that does not contain the decoded anchor: the
walk pops the root, `download_files` raises, and the walk aborts — the
reachable subfolder `"data/sub"` is never popped or processed, although the
hierarchy is acyclic. -/
theorem walk_abort_counterexample :
    (download_all_files_iterative "h".data "data".data "out".data (fun _ => (200, []))
        (RTree.node ["x".data] [("h/data/sub/".data, RTree.node [] [])]) []).trace =
      ["data".data] ∧
    (download_all_files_iterative "h".data "data".data "out".data (fun _ => (200, []))
        (RTree.node ["x".data] [("h/data/sub/".data, RTree.node [] [])]) []).err =
      some .anchorFail ∧
    reachStack "h".data
        [("data".data, RTree.node ["x".data] [("h/data/sub/".data, RTree.node [] [])])] =
      ["data".data, "data/sub".data] := by
  have hkeep : list_folders_keep "h".data "data".data "h/data/sub/".data = true := by decide
  have hchild : childPath "data".data "h/data/sub/".data = "data/sub".data := by decide
  have hps : pushedSubs "h".data "data".data [("h/data/sub/".data, RTree.node [] [])] =
      [("data/sub".data, RTree.node [] [])] := by
    simp [pushedSubs, List.filter_cons, hkeep, hchild]
  have hdl : ∀ fs : Fs, (download_files "h".data "data".data "data".data "out".data
      (fun _ => (200, [])) 207 ["x".data, "h/data/sub/".data] fs).err = some .anchorFail := by
    intro fs
    rw [download_files_eq_dlLoop]
    have hfil : (["x".data, "h/data/sub/".data].filter fun h => !endsWithSlash h) =
        ["x".data] := by decide
    rw [hfil]
    simp [dlLoop, show dlStep "data".data "data".data "out".data "x".data = .error ()
      from by decide]
  refine ⟨?_, ?_, ?_⟩
  · simp only [download_all_files_iterative, walk, List.map_cons, List.map_nil,
      List.append_nil]
    simp [hdl]
  · simp only [download_all_files_iterative, walk, List.map_cons, List.map_nil,
      List.append_nil]
    simp [hdl]
  · rw [reachStack, hps]
    simp only [List.append_nil]
    rw [reachStack]
    simp [pushedSubs, reachStack]

/-- C4 (amended): against every finite, acyclic (tree-shaped) remote
hierarchy the walk terminates — it pops at most as many folders as the
hierarchy has nodes — and when it completes without error, the popped
folders are exactly the folders reachable from the root through the
`list_folders` filter, each exactly once; a processing error aborts the
walk, leaving the remaining reachable folders unprocessed. -/
theorem walk_visits_each_reachable_once (hostname r lb : Str)
    (get : Str → Nat × List Nat) (t : RTree) (fs : Fs) :
    (download_all_files_iterative hostname r lb get t fs).trace.length ≤ treeSize t ∧
    ((download_all_files_iterative hostname r lb get t fs).err = none →
      (download_all_files_iterative hostname r lb get t fs).trace.Perm
        (reachStack hostname [(r, t)])) := by
  constructor
  · have h := walk_trace_length_aux hostname r lb get (subsListSize [(r, t)])
      [(r, t)] fs le_rfl
    simpa [subsListSize] using h
  · intro herr
    exact walk_trace_perm_aux hostname r lb get (subsListSize [(r, t)])
      [(r, t)] fs le_rfl herr

/-- C4 witness: a successful walk over a single empty folder pops exactly
the reachable folders. -/
theorem walk_visits_each_reachable_once_witness :
    (download_all_files_iterative "h".data "data".data "out".data (fun _ => (200, []))
        (RTree.node [] []) []).trace.Perm
      (reachStack "h".data [("data".data, RTree.node [] [])]) := by
  apply (walk_visits_each_reachable_once "h".data "data".data "out".data
    (fun _ => (200, [])) (RTree.node [] []) []).2
  have hdl : ∀ fs : Fs, download_files "h".data "data".data "data".data "out".data
      (fun _ => (200, [])) 207 [] fs = ⟨[], fs, none⟩ := by
    intro fs
    rw [download_files_eq_dlLoop]
    rfl
  simp only [download_all_files_iterative, walk, List.map_nil, List.append_nil, hdl]
  simp [pushedSubs, walk]

/-- C5: counterexample.  Running the walk twice on an unchanged remote tree
is not error-free: on a hierarchy whose file href `"x"` lacks the anchor,
the second run raises the same `ValueError` the first did, so the claim's
"raises no error" fails. -/
theorem walk_rerun_raises_counterexample :
    (download_all_files_iterative "h".data "data".data "out".data (fun _ => (200, []))
        (RTree.node ["x".data] [])
        (download_all_files_iterative "h".data "data".data "out".data (fun _ => (200, []))
          (RTree.node ["x".data] []) []).fs).err = some .anchorFail := by
  have hdl : ∀ fs : Fs, (download_files "h".data "data".data "data".data "out".data
      (fun _ => (200, [])) 207 ["x".data] fs).err = some .anchorFail := by
    intro fs
    rw [download_files_eq_dlLoop]
    have hfil : (["x".data].filter fun h => !endsWithSlash h) = ["x".data] := by decide
    rw [hfil]
    simp [dlLoop, show dlStep "data".data "data".data "out".data "x".data = .error ()
      from by decide]
  have h : ∀ fs : Fs, (download_all_files_iterative "h".data "data".data "out".data
      (fun _ => (200, [])) (RTree.node ["x".data] []) fs).err = some .anchorFail := by
    intro fs
    simp only [download_all_files_iterative, walk, List.map_nil, List.append_nil]
    simp [hdl]
  exact h _

/-- C5 (amended): rerunning `download_all_files_iterative` with the same
arguments against an unchanged remote tree into the same local base pops
the same folders, reports the same outcome (success, or the same error, so
a run that raised none stays error-free), and leaves the local filesystem
with the same file set and contents as a single run: every file is
overwritten with identical bytes and no duplicate entries are created. -/
theorem download_all_files_iterative_rerun (hostname r lb : Str)
    (get : Str → Nat × List Nat) (t : RTree) (fs0 : Fs) :
    (download_all_files_iterative hostname r lb get t
        (download_all_files_iterative hostname r lb get t fs0).fs).trace =
      (download_all_files_iterative hostname r lb get t fs0).trace ∧
    (download_all_files_iterative hostname r lb get t
        (download_all_files_iterative hostname r lb get t fs0).fs).err =
      (download_all_files_iterative hostname r lb get t fs0).err ∧
    ∀ k, fsLookup (download_all_files_iterative hostname r lb get t
        (download_all_files_iterative hostname r lb get t fs0).fs).fs k =
      fsLookup (download_all_files_iterative hostname r lb get t fs0).fs k := by
  obtain ⟨T, W, E, hplan⟩ := walk_plan hostname r lb get [(r, t)]
  simp only [download_all_files_iterative, hplan]
  exact ⟨trivial, trivial, fun k => fsLookup_applyWrites_idem W fs0 k⟩

end WebDav
